import Mathlib

/-!
# Formal model of RandStrGen (`src/main.rs`)

A shallow embedding of the random-string generator CLI tool.  The program
parses command-line arguments (flags, a length, then pool-directive tokens),
builds an ordered character pool from five predefined character sets plus
custom add/remove lists, samples random characters from the pool using a
byte-to-index mapping, prints the generated strings, and optionally copies
the last one to the clipboard.

Modelling conventions:
* Tokens are `List Char` (Rust `String` arguments); the argument list is a
  `List (List Char)`.
* The random byte source (`getrandom`) is an oracle `Nat → Nat`; a value
  produced for a buffer slot is reduced `% 256` since the buffer holds `u8`.
* Machine integers are modelled as `Nat`/`Int` with explicit range checks
  where the Rust code can reject input (`usize`/`i32` parsing).
* The `f32` expression `(b as f32 * ((n-1) as f32 / 255.0)).round() as usize`
  is modelled twice.  `char_index` is the idealized exact-rational rounding
  `round(b*(n-1)/255)` (the exact value is never a half-integer — its doubled
  numerator is even while a half-integer's is odd — so all tie conventions
  coincide); the sampler model `gen_rand_string` uses it.  `char_index_f32`
  is an exact value-level emulation of the IEEE-754 single-precision
  pipeline (round-to-nearest-even at each arithmetic step, `.round()` half
  away from zero).  The two agree for every pool of size at most 4096
  (`char_index_f32_eq_char_index`), but *not* for all constructible pools:
  the first divergence is at pool size 32769 with byte 254, where the f32
  pipeline yields index 32640 and the idealization 32639.  The f32 index
  stays within the pool's bounds for every pool of size at most `2^21`
  (`char_index_f32_lt`), which covers every reachable pool, since pool
  characters are distinct and there are fewer than `2^21` `char` values.
* `err!` in the source prints an `ERROR:` line and a `HELP:` line and then
  `return`s from `main`; the process therefore terminates *normally* with
  exit status 0 on these paths.  The model records the error kind (standing
  for the two printed lines) together with the exit code.
-/

namespace RandStrGen

/-- `DIGITS` from `src/main.rs`. -/
def DIGITS : List Char := ['0', '1', '2', '3', '4', '5', '6', '7', '8', '9']

/-- `LETTERS_LC` from `src/main.rs`. -/
def LETTERS_LC : List Char :=
  ['a', 'b', 'c', 'd', 'e', 'f', 'g', 'h', 'i', 'j', 'k', 'l', 'm', 'n', 'o',
   'p', 'q', 'r', 's', 't', 'u', 'v', 'w', 'x', 'y', 'z']

/-- `LETTERS_UC` from `src/main.rs`. -/
def LETTERS_UC : List Char :=
  ['A', 'B', 'C', 'D', 'E', 'F', 'G', 'H', 'I', 'J', 'K', 'L', 'M', 'N', 'O',
   'P', 'Q', 'R', 'S', 'T', 'U', 'V', 'W', 'X', 'Y', 'Z']

/-- `SEPARATORS` from `src/main.rs`. -/
def SEPARATORS : List Char := ['-', '.', '_']

/-- `MISC_SYMBOLS` from `src/main.rs`. -/
def MISC_SYMBOLS : List Char := ['!', '*', '&', '#']

/-- The error kinds of the spec's taxonomy, identifying the messages printed
by the `err!` macro invocations in `src/main.rs`:
`MissingArgument` ↦ "expected arg: repeat count" / "expected arg: length of password",
`InvalidInteger` ↦ "invalid count" / "invalid length",
`UnknownFlag` ↦ "invalid arg",
`InvalidPrefix` ↦ "invalid entry prefix",
`InvalidPoolEntry` ↦ "invalid pool entry",
`DuplicateCharacter` ↦ "can't add character to pool, already exists",
`CharacterNotFound` ↦ "can't remove character from pool, doesn't exist". -/
inductive ErrKind where
  | MissingArgument
  | InvalidInteger
  | UnknownFlag
  | InvalidPrefix
  | InvalidPoolEntry
  | DuplicateCharacter
  | CharacterNotFound
deriving DecidableEq, Repr

/-- Decidable equality for `Except`, so that concrete parser outcomes can be
checked by `decide`. -/
instance {ε α : Type} [DecidableEq ε] [DecidableEq α] : DecidableEq (Except ε α) :=
  fun x y =>
    match x, y with
    | .ok a, .ok b =>
      if h : a = b then isTrue (by rw [h])
      else isFalse (by intro hc; cases hc; exact h rfl)
    | .error a, .error b =>
      if h : a = b then isTrue (by rw [h])
      else isFalse (by intro hc; cases hc; exact h rfl)
    | .ok _, .error _ => isFalse (by intro hc; cases hc)
    | .error _, .ok _ => isFalse (by intro hc; cases hc)

/-- Parse a non-empty run of ASCII decimal digits (the digit part of Rust's
integer `FromStr`). -/
def parse_digits (s : List Char) : Option Nat :=
  match s with
  | [] => none
  | _ :: _ =>
    if s.all (fun c => c.isDigit) then
      some (s.foldl (fun acc c => 10 * acc + (c.toNat - 48)) 0)
    else none

/-- Rust `str::parse::<usize>`: an optional leading `'+'`, then one or more
digits; the value must fit in 64 bits. -/
def parse_usize (s : List Char) : Option Nat :=
  let body := match s with
    | '+' :: rest => parse_digits rest
    | _ => parse_digits s
  body.bind (fun n => if n < 2 ^ 64 then some n else none)

/-- Rust `str::parse::<i32>`: an optional leading sign, then one or more
digits; the value must fit in `i32`. -/
def parse_i32 (s : List Char) : Option Int :=
  match s with
  | '+' :: rest => (parse_digits rest).bind
      (fun n => if (n : Int) ≤ 2 ^ 31 - 1 then some (n : Int) else none)
  | '-' :: rest => (parse_digits rest).bind
      (fun n => if (n : Int) ≤ 2 ^ 31 then some (-(n : Int)) else none)
  | _ => (parse_digits s).bind
      (fun n => if (n : Int) ≤ 2 ^ 31 - 1 then some (n : Int) else none)

/-- The *idealized* byte-to-pool-index mapping of `gen_rand_string`:
`round(b * (poolLen - 1) / 255)` evaluated in exact rational arithmetic,
which equals `(2*b*(poolLen-1) + 255) / 510` in natural division (the exact
value is never a half-integer, so all tie conventions coincide).  The source
actually computes `(b as f32 * ((poolLen - 1) as f32 / 255.0)).round() as
usize`; the exact IEEE-754 emulation of that pipeline is `char_index_f32`
below.  The two agree for every pool of size at most 4096
(`char_index_f32_eq_char_index`) but diverge for some larger constructible
pools — first at pool size 32769 with byte 254, where the f32 pipeline
yields 32640 while this idealization yields 32639. -/
def char_index (poolLen b : Nat) : Nat :=
  (2 * b * (poolLen - 1) + 255) / 510

/-- Fuel-driven base-2 logarithm on ℕ (structural recursion, so the kernel
can evaluate it): `natLog2Aux fuel n = ⌊log₂ n⌋` whenever `n < 2 ^ fuel`. -/
def natLog2Aux : Nat → Nat → Nat
  | 0, _ => 0
  | fuel + 1, n => if n ≤ 1 then 0 else natLog2Aux fuel (n / 2) + 1

/-- `⌊log₂ n⌋` for `n ≥ 1` (and 0 at 0): `n` itself is always enough fuel
because `n < 2 ^ n`. -/
def natLog2 (n : Nat) : Nat := natLog2Aux n n

/-- Round a rational to the nearest integer, ties to even — the IEEE-754
`roundTiesToEven` integer rounding used by every binary floating-point
arithmetic operation. -/
def rndNE (x : ℚ) : ℤ :=
  if x - ⌊x⌋ < 1 / 2 then ⌊x⌋
  else if 1 / 2 < x - ⌊x⌋ then ⌊x⌋ + 1
  else if ⌊x⌋ % 2 = 0 then ⌊x⌋ else ⌊x⌋ + 1

/-- `⌊log₂ q⌋` for a positive rational `q` (the IEEE-754 binade exponent of
`q`), computed from the integer logarithms of numerator and denominator:
`a/d` lies in `(2^(A-D-1), 2^(A-D+1))` when `2^A ≤ a < 2^(A+1)` and
`2^D ≤ d < 2^(D+1)`, so one comparison settles the binade. -/
def qlog2 (q : ℚ) : ℤ :=
  if 2 ^ ((natLog2 q.num.toNat : ℤ) - (natLog2 q.den : ℤ)) ≤ q
  then (natLog2 q.num.toNat : ℤ) - (natLog2 q.den : ℤ)
  else (natLog2 q.num.toNat : ℤ) - (natLog2 q.den : ℤ) - 1

/-- Round a nonnegative rational to the nearest IEEE-754 single-precision
value (`f32`), ties to even: scale `q` into the binade `[2^23, 2^24)`, round
the 24-bit significand to the nearest integer (ties to even) and scale back.
This is the exact value of the `f32` nearest-even rounding of `q` whenever
`q` lies in the normal range, which covers every value arising in
`gen_rand_string` (exponents there stay within roughly `2^-8 .. 2^31`). -/
def f32round (q : ℚ) : ℚ :=
  if 0 < q then (rndNE (q / 2 ^ (qlog2 q - 23)) : ℚ) * 2 ^ (qlog2 q - 23)
  else 0

/-- The exact IEEE-754 emulation of the source's byte-to-index computation
`(b as f32 * ((poolLen - 1) as f32 / 255.0)).round() as usize`:
`(poolLen - 1) as f32` is one nearest-even rounding of the integer, the
division by the exactly representable `255.0` is a second, the product with
the exactly representable byte `b` is a third, `.round()` rounds half away
from zero (equal to `⌊x + 1/2⌋` on the nonnegative values produced here,
which is Mathlib's `round`), and `as usize` truncates the nonnegative
integral result (`Int.toNat`). -/
def char_index_f32 (poolLen b : Nat) : Nat :=
  (round (f32round ((b : ℚ)
      * f32round (f32round (((poolLen - 1 : ℕ) : ℚ)) / 255)))).toNat

/-- `gen_rand_string(pool, len)` from `src/main.rs`.  `rand` is the random
byte source (`getrandom`): slot `i` of the requested buffer holds byte
`rand i % 256`.  If `len == 0` or the pool is empty the function returns
the empty string before requesting any random bytes; otherwise it maps each
of the `len` random bytes to the pool character at `char_index`.  Rust's
`pool[idx]` panics when out of bounds; the embedding uses `getD` with a
placeholder default, and `char_index_lt` below shows the index is always in
bounds for a byte, so the default is never consulted. -/
def gen_rand_string (pool : List Char) (len : Nat) (rand : Nat → Nat) : List Char :=
  if len = 0 ∨ pool = [] then []
  else (List.range len).map
    (fun i => pool.getD (char_index pool.length (rand i % 256)) ' ')

/-- Number of random bytes `gen_rand_string` requests from `getrandom`:
zero on the two early-return paths, otherwise `len` (the buffer size). -/
def rand_bytes_requested (pool : List Char) (len : Nat) : Nat :=
  if len = 0 ∨ pool = [] then 0 else len

/-- The `use_defined_sets: [bool; 5]` array of `main`, one flag per
predefined set, in the index order of `DEFINED_SETS`:
0 = digits, 1 = lowercase, 2 = uppercase, 3 = separators, 4 = misc symbols. -/
structure SetFlags where
  digits : Bool
  lower : Bool
  upper : Bool
  upper_sep : Bool
  misc : Bool
deriving DecidableEq, Repr

/-- The parser state accumulated by the entries loop of `main`:
the five inclusion flags plus the custom `add_chars` / `remove_chars` lists. -/
structure PoolCfg where
  flags : SetFlags
  add_chars : List Char
  remove_chars : List Char
deriving DecidableEq, Repr

/-- Initial state: `[true; 5]` and empty add/remove lists. -/
def init_cfg : PoolCfg := ⟨⟨true, true, true, true, true⟩, [], []⟩

/-- The inner character loop of the entries parser (`while let Some(set) =
chars.next()` in `main`): each character either toggles one predefined-set
flag to the group's sign, resets all flags on `'A'`, starts a literal
custom-set run on `'['` (consuming up to and including the next `']'`, or to
the end of the token), or is rejected as `InvalidPoolEntry`.  The source's
nested `while` loop that collects a custom run into `set_chars` and then
extends `add_chars`/`remove_chars` is flattened here into a scanning mode
`in_run`; the run's characters are appended one at a time, in order, which
yields the same final add/remove lists. -/
def proc_entry_chars (sign : Bool) (cfg : PoolCfg) (in_run : Bool) :
    List Char → Except ErrKind PoolCfg
  | [] => .ok cfg
  | c :: rest =>
    if in_run then
      if c = ']' then proc_entry_chars sign cfg false rest
      else
        let cfg2 :=
          if sign then { cfg with add_chars := cfg.add_chars ++ [c] }
          else { cfg with remove_chars := cfg.remove_chars ++ [c] }
        proc_entry_chars sign cfg2 true rest
    else if c = 'd' then proc_entry_chars sign { cfg with flags.digits := sign } false rest
    else if c = 'l' then proc_entry_chars sign { cfg with flags.lower := sign } false rest
    else if c = 'u' then proc_entry_chars sign { cfg with flags.upper := sign } false rest
    else if c = 's' then proc_entry_chars sign { cfg with flags.upper_sep := sign } false rest
    else if c = 'm' then proc_entry_chars sign { cfg with flags.misc := sign } false rest
    else if c = 'A' then
      proc_entry_chars sign { cfg with flags := ⟨false, false, false, false, false⟩ } false rest
    else if c = '[' then proc_entry_chars sign cfg true rest
    else .error .InvalidPoolEntry

/-- The outer entries loop of `main` (`--- PARSE POOL MODIFIERS ---`):
empty tokens are skipped; otherwise the first character must be `'+'`
(sign `true`) or `'-'` (sign `false`), else `InvalidPrefix`; the remaining
characters are handed to `proc_entry_chars`. -/
def proc_entries (cfg : PoolCfg) : List (List Char) → Except ErrKind PoolCfg
  | [] => .ok cfg
  | arg :: rest =>
    match arg with
    | [] => proc_entries cfg rest
    | c :: body =>
      if c = '+' then
        match proc_entry_chars true cfg false body with
        | .ok cfg2 => proc_entries cfg2 rest
        | .error e => .error e
      else if c = '-' then
        match proc_entry_chars false cfg false body with
        | .ok cfg2 => proc_entries cfg2 rest
        | .error e => .error e
      else .error .InvalidPrefix

/-- Result of phase 1 of `main`'s argument parsing: either `--help` was hit
(immediate successful exit), or the flags, repeat count, parsed length and
the remaining (directive) tokens. -/
inductive P1Result where
  | help
  | done (copy show_pool : Bool) (rep : Int) (len : Nat) (rest : List (List Char))
deriving DecidableEq, Repr

/-- Phase 1 of `main`'s argument parsing (`--- PARSE ARGS ---` loop), with
the current values of `copy_cond`, `show_pool` and `repeat` threaded through:
flag tokens update the state; `--repeat`/`-r` consume the following token as
an `i32`; any other token starting with `'-'` is `UnknownFlag`; the first
non-flag token is parsed as the `usize` length, ending the loop; running out
of tokens without a length is `MissingArgument`. -/
def parse_args (copy show_pool : Bool) (rep : Int) :
    List (List Char) → Except ErrKind P1Result
  | [] => .error .MissingArgument
  | arg :: rest =>
    if arg = "--copy".data ∨ arg = "-c".data then
      parse_args true show_pool rep rest
    else if arg = "--repeat".data ∨ arg = "-r".data then
      match rest with
      | [] => .error .MissingArgument
      | cnt :: rest2 =>
        match parse_i32 cnt with
        | some v => parse_args copy show_pool v rest2
        | none => .error .InvalidInteger
    else if arg = "--help".data ∨ arg = "-h".data then .ok .help
    else if arg = "--show-pool".data then
      parse_args copy true rep rest
    else if arg.head? = some '-' then .error .UnknownFlag
    else
      match parse_usize arg with
      | some l => .ok (.done copy show_pool rep l rest)
      | none => .error .InvalidInteger

/-- The base-pool construction loop of `main` (`--- CREATE POOL ---`):
for each predefined set in the `DEFINED_SETS` order (digits, lowercase,
uppercase, separators, misc symbols), if its flag is set, extend the pool
with its characters. -/
def base_pool (f : SetFlags) : List Char :=
  [(f.digits, DIGITS), (f.lower, LETTERS_LC), (f.upper, LETTERS_UC),
   (f.upper_sep, SEPARATORS), (f.misc, MISC_SYMBOLS)].foldl
    (fun pool e => if e.1 then pool ++ e.2 else pool) []

/-- The add-list loop of `main`: each custom character is appended to the
pool, failing with `DuplicateCharacter` if it is already present
(`pool.iter().position(..).is_some()`). -/
def apply_adds (pool : List Char) : List Char → Except ErrKind (List Char)
  | [] => .ok pool
  | c :: cs =>
    if c ∈ pool then .error .DuplicateCharacter
    else apply_adds (pool ++ [c]) cs

/-- The remove-list loop of `main`: for each custom character, find its first
index in the pool (`pool.iter().position(..)`) and remove the element there
(`pool.remove(idx)`, which shifts the rest left), failing with
`CharacterNotFound` when the character is absent. -/
def apply_removes (pool : List Char) : List Char → Except ErrKind (List Char)
  | [] => .ok pool
  | c :: cs =>
    match pool.findIdx? (fun x => x = c) with
    | some idx => apply_removes (pool.eraseIdx idx) cs
    | none => .error .CharacterNotFound

/-- The whole `--- CREATE POOL ---` section: base pool from the flags, then
the add list, then the remove list. -/
def build_pool (cfg : PoolCfg) : Except ErrKind (List Char) :=
  match apply_adds (base_pool cfg.flags) cfg.add_chars with
  | .ok p => apply_removes p cfg.remove_chars
  | .error e => .error e

/-- Observable outcome of one run of `main`.  `err = some k` stands for the
two lines (`ERROR: …` and `HELP: …`) printed by the `err!` macro before the
`return`.  `exit_code` is the process exit status: every path of `main` in
the source ends in a plain `return` (or falls off the end), so the process
exits 0; only a panic in an external collaborator (random source, clipboard)
would abort with a non-zero status, and those are outside this model. -/
structure Outcome where
  err : Option ErrKind
  help : Bool
  copy_requested : Bool
  pool_shown : Option (List Char)
  outputs : List (List Char)
  clipboard : Option (List Char)
  exit_code : Nat
deriving DecidableEq, Repr

/-- Outcome of an `err!` invocation: the error lines are printed and `main`
returns normally (exit status 0). -/
def err_outcome (k : ErrKind) : Outcome :=
  ⟨some k, false, false, none, [], none, 0⟩

/-- The whole of `main` (minus terminal colouring): parse flags and length,
parse the directive tokens, build the pool, generate `repeat` strings
(`(0..repeat)`, empty when `repeat ≤ 0`), print them, and copy the last one
to the clipboard when `--copy` was given and at least one string exists
(`if let Some(string) = strings.last() && copy_cond`).  `rand k` is the
byte-source oracle used for the `k`-th generated string. -/
def run_main (args : List (List Char)) (rand : Nat → Nat → Nat) : Outcome :=
  match parse_args false false 1 args with
  | .error k => err_outcome k
  | .ok .help => ⟨none, true, false, none, [], none, 0⟩
  | .ok (.done copy show_pool rep len rest) =>
    match proc_entries init_cfg rest with
    | .error k => err_outcome k
    | .ok cfg =>
      match build_pool cfg with
      | .error k => err_outcome k
      | .ok pool =>
        let strings := (List.range rep.toNat).map
          (fun k => gen_rand_string pool len (rand k))
        { err := none
          help := false
          copy_requested := copy
          pool_shown := if show_pool then some pool else none
          outputs := strings
          clipboard :=
            match strings.getLast? with
            | some s => if copy then some s else none
            | none => none
          exit_code := 0 }

/-- The inclusion flag a predefined-set letter refers to (the array slot the
source writes in the entries loop: `'d'` ↦ 0, `'l'` ↦ 1, `'u'` ↦ 2,
`'s'` ↦ 3, `'m'` ↦ 4); any other character reads as `true` (unused). -/
def flag_of (c : Char) (f : SetFlags) : Bool :=
  if c = 'd' then f.digits
  else if c = 'l' then f.lower
  else if c = 'u' then f.upper
  else if c = 's' then f.upper_sep
  else if c = 'm' then f.misc
  else true

/-- Modelled from the claim's words, for comparison with the code's
behaviour: "the final inclusion flag of each predefined set equals the sign
of the last directive group whose body mentions that set's letter
(defaulting to included when no directive mentions it)".  Folding the groups
left to right, a group whose body (the token after its sign character)
contains the letter overwrites the flag with the group's sign. -/
def spec_last_mention_flag (letter : Char) (groups : List (List Char)) : Bool :=
  groups.foldl
    (fun acc g =>
      if letter ∈ g.drop 1 then (if g.head? = some '+' then true else false)
      else acc)
    true

/-! ## Helper lemmas -/

/-- The byte-to-index mapping stays in bounds: for a non-empty pool and a
byte `b ≤ 255`, `char_index` is a valid pool index. -/
theorem char_index_lt (n b : Nat) (hn : n ≠ 0) (hb : b ≤ 255) :
    char_index n b < n := by
  unfold char_index
  rw [Nat.div_lt_iff_lt_mul (by norm_num)]
  have h1 : 2 * b * (n - 1) ≤ 510 * (n - 1) := by
    apply Nat.mul_le_mul_right
    omega
  have h2 : 510 * (n - 1) + 510 = 510 * n := by
    cases n with
    | zero => exact absurd rfl hn
    | succ k => ring_nf; omega
  omega

/-- `char_index` agrees with the spec's formula `round(b * (|pool| - 1) / 255)`
evaluated in exact rational arithmetic. -/
theorem char_index_eq_round (n b : Nat) :
    (char_index n b : ℤ) = round ((b : ℚ) * ((n - 1 : ℕ) : ℚ) / 255) := by
  unfold char_index
  generalize n - 1 = m
  rw [round_eq]
  have h : (b : ℚ) * (m : ℚ) / 255 + 1 / 2
      = (((2 * b * m + 255 : ℕ) : ℤ) : ℚ) / ((510 : ℕ) : ℚ) := by
    push_cast
    ring
  rw [h, Rat.floor_intCast_div_natCast]
  exact_mod_cast rfl

/-- `natLog2Aux` computes `⌊log₂ n⌋` whenever the fuel bounds `n`. -/
theorem natLog2Aux_spec : ∀ (fuel n : Nat), 1 ≤ n → n < 2 ^ fuel →
    2 ^ natLog2Aux fuel n ≤ n ∧ n < 2 ^ (natLog2Aux fuel n + 1) := by
  intro fuel
  induction fuel with
  | zero =>
    intro n h1 h2
    simp at h2
    omega
  | succ fuel ih =>
    intro n h1 h2
    by_cases hn : n ≤ 1
    · have he : n = 1 := by omega
      subst he
      simp [natLog2Aux]
    · have hdiv : n / 2 < 2 ^ fuel := by
        rw [pow_succ] at h2
        omega
      have hrec := ih (n / 2) (by omega) hdiv
      rw [natLog2Aux, if_neg hn]
      rw [pow_succ, pow_succ]
      constructor
      · have := hrec.1
        omega
      · have := hrec.2
        omega

/-- `natLog2 n = ⌊log₂ n⌋` for every `n ≥ 1` (fuel `n` always suffices). -/
theorem natLog2_spec (n : Nat) (h : 1 ≤ n) :
    2 ^ natLog2 n ≤ n ∧ n < 2 ^ (natLog2 n + 1) :=
  natLog2Aux_spec n n h (Nat.lt_two_pow n)

/-- Nearest-even rounding is within half of its argument. -/
theorem rndNE_bounds (x : ℚ) :
    x - 1 / 2 ≤ (rndNE x : ℚ) ∧ (rndNE x : ℚ) ≤ x + 1 / 2 := by
  have hfl : (⌊x⌋ : ℚ) ≤ x := Int.floor_le x
  have hfu : x < (⌊x⌋ : ℚ) + 1 := Int.lt_floor_add_one x
  unfold rndNE
  by_cases h1 : x - ⌊x⌋ < 1 / 2
  · rw [if_pos h1]
    constructor <;> [linarith; linarith]
  · rw [if_neg h1]
    by_cases h2 : 1 / 2 < x - ⌊x⌋
    · rw [if_pos h2]
      push_cast
      constructor <;> linarith
    · rw [if_neg h2]
      have heq : x - ⌊x⌋ = 1 / 2 := by linarith
      by_cases h3 : ⌊x⌋ % 2 = 0
      · rw [if_pos h3]
        constructor <;> linarith
      · rw [if_neg h3]
        push_cast
        constructor <;> linarith

/-- The binade property of `qlog2`: for positive `q`,
`2 ^ qlog2 q ≤ q < 2 ^ (qlog2 q + 1)`. -/
theorem qlog2_spec (q : ℚ) (hq : 0 < q) :
    (2 : ℚ) ^ qlog2 q ≤ q ∧ q < 2 ^ (qlog2 q + 1) := by
  have hnum : 0 < q.num := Rat.num_pos.mpr hq
  have ha1 : 1 ≤ q.num.toNat := by omega
  have hd1 : 1 ≤ q.den := q.den_pos
  obtain ⟨hA1, hA2⟩ := natLog2_spec q.num.toNat ha1
  obtain ⟨hD1, hD2⟩ := natLog2_spec q.den hd1
  set A := natLog2 q.num.toNat with hA
  set D := natLog2 q.den with hD
  have hqeq : q = (q.num.toNat : ℚ) / (q.den : ℚ) := by
    rw [show ((q.num.toNat : ℕ) : ℚ) = (q.num : ℚ) by
      exact_mod_cast congrArg (fun z : ℤ => (z : ℚ))
        (Int.toNat_of_nonneg (by omega : (0 : ℤ) ≤ q.num))]
    exact (Rat.num_div_den q).symm
  have hdpos : (0 : ℚ) < (q.den : ℚ) := by
    exact_mod_cast hd1
  -- cast the Nat bounds into ℚ with zpow exponents
  have hcast : ∀ k : ℕ, ((2 : ℚ) ^ (k : ℤ)) = ((2 ^ k : ℕ) : ℚ) := by
    intro k
    rw [zpow_natCast]
    push_cast
    ring
  have key_u : q < 2 ^ ((A : ℤ) - D + 1) := by
    rw [hqeq, div_lt_iff₀ hdpos]
    have h1 : ((q.num.toNat : ℕ) : ℚ) < (2 : ℚ) ^ ((A : ℤ) + 1) := by
      rw [show ((A : ℤ) + 1) = (((A + 1 : ℕ)) : ℤ) by push_cast; ring, hcast]
      exact_mod_cast hA2
    have h2 : (2 : ℚ) ^ ((A : ℤ) + 1) ≤ 2 ^ ((A : ℤ) - D + 1) * (q.den : ℚ) := by
      have h3 : ((2 : ℚ) ^ (D : ℤ)) ≤ (q.den : ℚ) := by
        rw [hcast]
        exact_mod_cast hD1
      calc (2 : ℚ) ^ ((A : ℤ) + 1) = 2 ^ ((A : ℤ) - D + 1) * 2 ^ (D : ℤ) := by
            rw [← zpow_add₀ (by norm_num : (2:ℚ) ≠ 0)]
            ring_nf
        _ ≤ 2 ^ ((A : ℤ) - D + 1) * (q.den : ℚ) := by
            apply mul_le_mul_of_nonneg_left h3
            positivity
    linarith
  have key_l : (2 : ℚ) ^ ((A : ℤ) - D - 1) < q := by
    rw [hqeq, lt_div_iff₀ hdpos]
    have h1 : (2 : ℚ) ^ ((A : ℤ) - D - 1) * (q.den : ℚ) < 2 ^ (A : ℤ) := by
      have h3 : (q.den : ℚ) < (2 : ℚ) ^ ((D : ℤ) + 1) := by
        rw [show ((D : ℤ) + 1) = (((D + 1 : ℕ)) : ℤ) by push_cast; ring, hcast]
        exact_mod_cast hD2
      calc (2 : ℚ) ^ ((A : ℤ) - D - 1) * (q.den : ℚ)
          < 2 ^ ((A : ℤ) - D - 1) * 2 ^ ((D : ℤ) + 1) := by
            apply mul_lt_mul_of_pos_left h3
            positivity
        _ = 2 ^ (A : ℤ) := by
            rw [← zpow_add₀ (by norm_num : (2:ℚ) ≠ 0)]
            ring_nf
    have h2 : ((2 : ℚ) ^ (A : ℤ)) ≤ ((q.num.toNat : ℕ) : ℚ) := by
      rw [hcast]
      exact_mod_cast hA1
    linarith
  unfold qlog2
  by_cases hcmp : (2 : ℚ) ^ ((natLog2 q.num.toNat : ℤ) - (natLog2 q.den : ℤ)) ≤ q
  · rw [if_pos hcmp]
    exact ⟨hcmp, by simpa using key_u⟩
  · rw [if_neg hcmp]
    constructor
    · have : ((A : ℤ) - D - 1) = ((natLog2 q.num.toNat : ℤ) - (natLog2 q.den : ℤ) - 1) := by
        rw [hA, hD]
      exact le_of_lt (this ▸ key_l)
    · have : ((natLog2 q.num.toNat : ℤ) - (natLog2 q.den : ℤ) - 1 + 1)
          = ((natLog2 q.num.toNat : ℤ) - (natLog2 q.den : ℤ)) := by ring
      rw [this]
      exact lt_of_not_le hcmp

/-- Uniqueness of the binade: if `2^L ≤ q < 2^(L+1)` then `qlog2 q = L`
(used to evaluate `qlog2` at concrete rationals without unfolding). -/
theorem qlog2_eq_of (q : ℚ) (L : ℤ) (hq : 0 < q)
    (h1 : (2 : ℚ) ^ L ≤ q) (h2 : q < 2 ^ (L + 1)) : qlog2 q = L := by
  obtain ⟨hs1, hs2⟩ := qlog2_spec q hq
  by_contra hne
  rcases lt_or_gt_of_ne hne with hlt | hgt
  · have : (2 : ℚ) ^ (qlog2 q + 1) ≤ 2 ^ L := by
      apply zpow_le_zpow_right₀ (by norm_num)
      omega
    linarith
  · have : (2 : ℚ) ^ (L + 1) ≤ 2 ^ (qlog2 q) := by
      apply zpow_le_zpow_right₀ (by norm_num)
      omega
    linarith

/-- The single-precision rounding has relative error at most `2^-24` on
positive arguments. -/
theorem f32round_bounds (q : ℚ) (hq : 0 < q) :
    q - q / 2 ^ 24 ≤ f32round q ∧ f32round q ≤ q + q / 2 ^ 24 := by
  unfold f32round
  rw [if_pos hq]
  set e : ℤ := qlog2 q - 23 with he_def
  set E : ℚ := (2 : ℚ) ^ e with hE_def
  have hEpos : (0 : ℚ) < E := by
    rw [hE_def]
    positivity
  obtain ⟨hr1, hr2⟩ := rndNE_bounds (q / E)
  obtain ⟨hb1, _⟩ := qlog2_spec q hq
  have hE24 : E * 2 ^ (24 : ℕ) = 2 ^ qlog2 q * 2 := by
    rw [hE_def, he_def,
      show ((2 : ℚ) ^ (24 : ℕ)) = (2 : ℚ) ^ ((24 : ℤ)) from (zpow_natCast 2 24).symm,
      ← zpow_add₀ (by norm_num : (2 : ℚ) ≠ 0),
      show (qlog2 q - 23 + 24) = (qlog2 q + 1) by ring,
      zpow_add₀ (by norm_num : (2 : ℚ) ≠ 0), zpow_one]
  have hhalf : E / 2 ≤ q / 2 ^ (24 : ℕ) := by
    rw [div_le_div_iff₀ (by norm_num) (by positivity), hE24]
    linarith
  constructor
  · have h1 := mul_le_mul_of_nonneg_right hr1 (le_of_lt hEpos)
    rw [sub_mul, div_mul_cancel₀ _ (ne_of_gt hEpos)] at h1
    have h2 : (1 : ℚ) / 2 * E = E / 2 := by ring
    rw [h2] at h1
    linarith
  · have h1 := mul_le_mul_of_nonneg_right hr2 (le_of_lt hEpos)
    rw [add_mul, div_mul_cancel₀ _ (ne_of_gt hEpos)] at h1
    have h2 : (1 : ℚ) / 2 * E = E / 2 := by ring
    rw [h2] at h1
    linarith

/-- Single-precision rounding of a positive value is positive. -/
theorem f32round_pos (q : ℚ) (hq : 0 < q) : 0 < f32round q := by
  obtain ⟨h1, _⟩ := f32round_bounds q hq
  have : q - q / 2 ^ 24 > 0 := by
    have : q / 2 ^ 24 < q := by
      apply div_lt_self hq
      norm_num
    linarith
  linarith

/-- Single-precision rounding maps nonpositives (only 0 arises here) to 0. -/
theorem f32round_nonpos (q : ℚ) (hq : ¬ 0 < q) : f32round q = 0 := by
  unfold f32round
  rw [if_neg hq]

/-- Accumulated error of the three-rounding `f32` pipeline
`fl(b * fl(fl(m) / 255))`: it stays within `m / 2^22` of the exact value
`b * m / 255` (three relative errors of `2^-24` each, coarsely bounded). -/
theorem f32_pipeline_bounds (m b : Nat) (hm : 1 ≤ m) (hb1 : 1 ≤ b) (hb : b ≤ 255) :
    (b : ℚ) * (m : ℚ) / 255 - (m : ℚ) / 2 ^ 22
      ≤ f32round ((b : ℚ) * f32round (f32round ((m : ℕ) : ℚ) / 255))
  ∧ f32round ((b : ℚ) * f32round (f32round ((m : ℕ) : ℚ) / 255))
      ≤ (b : ℚ) * (m : ℚ) / 255 + (m : ℚ) / 2 ^ 22 := by
  have hM : (0 : ℚ) < (m : ℚ) := by exact_mod_cast hm
  have hB0 : (0 : ℚ) ≤ (b : ℚ) := by positivity
  have hBpos : (0 : ℚ) < (b : ℚ) := by exact_mod_cast hb1
  have hB255 : (b : ℚ) ≤ 255 := by exact_mod_cast hb
  obtain ⟨h0l, h0u⟩ := f32round_bounds ((m : ℕ) : ℚ) hM
  have hf0pos : 0 < f32round ((m : ℕ) : ℚ) := f32round_pos _ hM
  set f0 := f32round ((m : ℕ) : ℚ) with hf0_def
  have hq1 : (0 : ℚ) < f0 / 255 := by positivity
  obtain ⟨h1l, h1u⟩ := f32round_bounds (f0 / 255) hq1
  have hf1pos : 0 < f32round (f0 / 255) := f32round_pos _ hq1
  set f1 := f32round (f0 / 255) with hf1_def
  have hq2 : (0 : ℚ) < (b : ℚ) * f1 := by positivity
  obtain ⟨h2l, h2u⟩ := f32round_bounds ((b : ℚ) * f1) hq2
  set f2 := f32round ((b : ℚ) * f1) with hf2_def
  have hBM : (b : ℚ) * (m : ℚ) ≤ 255 * (m : ℚ) :=
    mul_le_mul_of_nonneg_right hB255 (le_of_lt hM)
  constructor
  · -- lower bound
    have s1 : ((m : ℚ) - (m : ℚ) / 2 ^ 24) / 255
        - (((m : ℚ) - (m : ℚ) / 2 ^ 24) / 255) / 2 ^ 24 ≤ f1 := by
      linarith
    have s2 : (b : ℚ) * (((m : ℚ) - (m : ℚ) / 2 ^ 24) / 255
        - (((m : ℚ) - (m : ℚ) / 2 ^ 24) / 255) / 2 ^ 24) ≤ (b : ℚ) * f1 :=
      mul_le_mul_of_nonneg_left s1 hB0
    have s3 : (b : ℚ) * (((m : ℚ) - (m : ℚ) / 2 ^ 24) / 255
          - (((m : ℚ) - (m : ℚ) / 2 ^ 24) / 255) / 2 ^ 24)
        - (b : ℚ) * (((m : ℚ) - (m : ℚ) / 2 ^ 24) / 255
          - (((m : ℚ) - (m : ℚ) / 2 ^ 24) / 255) / 2 ^ 24) / 2 ^ 24 ≤ f2 := by
      linarith
    have s4 : (b : ℚ) * (((m : ℚ) - (m : ℚ) / 2 ^ 24) / 255
          - (((m : ℚ) - (m : ℚ) / 2 ^ 24) / 255) / 2 ^ 24)
        - (b : ℚ) * (((m : ℚ) - (m : ℚ) / 2 ^ 24) / 255
          - (((m : ℚ) - (m : ℚ) / 2 ^ 24) / 255) / 2 ^ 24) / 2 ^ 24
        = ((b : ℚ) * (m : ℚ)) * ((1 - 1 / 2 ^ 24) ^ 3 / 255) := by ring
    rw [s4] at s3
    linarith
  · -- upper bound
    have s1 : f1 ≤ ((m : ℚ) + (m : ℚ) / 2 ^ 24) / 255
        + (((m : ℚ) + (m : ℚ) / 2 ^ 24) / 255) / 2 ^ 24 := by
      linarith
    have s2 : (b : ℚ) * f1 ≤ (b : ℚ) * (((m : ℚ) + (m : ℚ) / 2 ^ 24) / 255
        + (((m : ℚ) + (m : ℚ) / 2 ^ 24) / 255) / 2 ^ 24) :=
      mul_le_mul_of_nonneg_left s1 hB0
    have s3 : f2 ≤ (b : ℚ) * (((m : ℚ) + (m : ℚ) / 2 ^ 24) / 255
          + (((m : ℚ) + (m : ℚ) / 2 ^ 24) / 255) / 2 ^ 24)
        + (b : ℚ) * (((m : ℚ) + (m : ℚ) / 2 ^ 24) / 255
          + (((m : ℚ) + (m : ℚ) / 2 ^ 24) / 255) / 2 ^ 24) / 2 ^ 24 := by
      linarith
    have s4 : (b : ℚ) * (((m : ℚ) + (m : ℚ) / 2 ^ 24) / 255
          + (((m : ℚ) + (m : ℚ) / 2 ^ 24) / 255) / 2 ^ 24)
        + (b : ℚ) * (((m : ℚ) + (m : ℚ) / 2 ^ 24) / 255
          + (((m : ℚ) + (m : ℚ) / 2 ^ 24) / 255) / 2 ^ 24) / 2 ^ 24
        = ((b : ℚ) * (m : ℚ)) * ((1 + 1 / 2 ^ 24) ^ 3 / 255) := by ring
    rw [s4] at s3
    linarith

/-- The `f32` pipeline yields index 0 whenever `poolLen - 1 = 0`
(a pool of size at most one). -/
theorem char_index_f32_m_zero (n b : Nat) (h : n - 1 = 0) :
    char_index_f32 n b = 0 := by
  unfold char_index_f32
  rw [h]
  have h1 : f32round ((0 : ℕ) : ℚ) = 0 := f32round_nonpos _ (by norm_num)
  rw [h1]
  have h2 : f32round ((0 : ℚ) / 255) = 0 := by
    rw [zero_div]
    exact f32round_nonpos _ (by norm_num)
  rw [h2, mul_zero]
  rw [f32round_nonpos 0 (by norm_num), round_zero]
  rfl

/-- The `f32` pipeline yields index 0 on byte 0. -/
theorem char_index_f32_b_zero (n : Nat) : char_index_f32 n 0 = 0 := by
  unfold char_index_f32
  rw [Nat.cast_zero, zero_mul, f32round_nonpos 0 (by norm_num), round_zero]
  rfl

/-- For pools of size at most 4096, the exact `f32` pipeline and the
idealized rational rounding compute the same index for every byte: the
accumulated `f32` error (at most `m / 2^22`) is smaller than the distance
from the exact value to the nearest rounding boundary (at least `1/510`,
since the exact value is never a half-integer). -/
theorem char_index_f32_eq_char_index (n b : Nat) (hn : n - 1 ≤ 4095) (hb : b ≤ 255) :
    char_index_f32 n b = char_index n b := by
  rcases Nat.eq_zero_or_pos (n - 1) with hm0 | hm1
  · rw [char_index_f32_m_zero n b hm0]
    unfold char_index
    rw [hm0]
    norm_num
  · rcases Nat.eq_zero_or_pos b with rfl | hb1
    · rw [char_index_f32_b_zero n]
      unfold char_index
      norm_num
    · unfold char_index_f32 char_index
      obtain ⟨hl, hu⟩ := f32_pipeline_bounds (n - 1) b hm1 hb1 hb
      set m : ℕ := n - 1 with hm_def
      set f2 := f32round ((b : ℚ) * f32round (f32round ((m : ℕ) : ℚ) / 255))
        with hf2_def
      have hM4095 : ((m : ℕ) : ℚ) ≤ 4095 := by exact_mod_cast hn
      -- name the Nat-division data of the exact index
      set K : ℕ := (2 * b * m + 255) / 510 with hK_def
      set r : ℕ := (2 * b * m + 255) % 510 with hr_def
      have hP : ∃ P, b * m = P := ⟨b * m, rfl⟩
      obtain ⟨P, hPe⟩ := hP
      have hdm : 2 * b * m + 255 = 2 * P + 255 := by
        rw [← hPe]
        ring
      have hKr : 2 * P + 255 = 510 * K + r ∧ 1 ≤ r ∧ r ≤ 509 := by
        rw [hK_def, hr_def, hdm]
        omega
      have hv : (b : ℚ) * (m : ℚ) / 255 + 1 / 2 = (K : ℚ) + (r : ℚ) / 510 := by
        have hc : ((2 * P + 255 : ℕ) : ℚ) = ((510 * K + r : ℕ) : ℚ) := by
          exact_mod_cast congrArg (fun x : ℕ => (x : ℚ)) hKr.1
        have hPc : ((P : ℕ) : ℚ) = (b : ℚ) * (m : ℚ) := by
          rw [← hPe]
          push_cast
          ring
        push_cast at hc
        rw [hPc] at hc
        linarith
      have hr1 : (1 : ℚ) ≤ (r : ℚ) := by exact_mod_cast hKr.2.1
      have hr509 : (r : ℚ) ≤ 509 := by exact_mod_cast hKr.2.2
      have hfloor : ⌊f2 + 1 / 2⌋ = (K : ℤ) := by
        rw [Int.floor_eq_iff]
        constructor
        · push_cast
          linarith
        · push_cast
          linarith
      rw [round_eq, hfloor]
      exact Int.toNat_natCast K

/-- The `f32` pipeline index is within the pool's bounds for every pool of
size at most `2^21` and every byte — in particular for every reachable
pool, whose characters are distinct (fewer than `2^21` `char` values
exist). -/
theorem char_index_f32_lt (n b : Nat) (hn1 : 1 ≤ n) (hsize : n ≤ 2 ^ 21)
    (hb : b ≤ 255) : char_index_f32 n b < n := by
  rcases Nat.eq_zero_or_pos (n - 1) with hm0 | hm1
  · rw [char_index_f32_m_zero n b hm0]
    omega
  · rcases Nat.eq_zero_or_pos b with rfl | hb1
    · rw [char_index_f32_b_zero n]
      omega
    · unfold char_index_f32
      obtain ⟨_, hu⟩ := f32_pipeline_bounds (n - 1) b hm1 hb1 hb
      set m : ℕ := n - 1 with hm_def
      set f2 := f32round ((b : ℚ) * f32round (f32round ((m : ℕ) : ℚ) / 255))
        with hf2_def
      have hBM : (b : ℚ) * (m : ℚ) ≤ 255 * (m : ℚ) := by
        apply mul_le_mul_of_nonneg_right _ (by positivity)
        exact_mod_cast hb
      have hMsz : ((m : ℕ) : ℚ) ≤ 2 ^ 21 - 1 := by
        have : m ≤ 2 ^ 21 - 1 := by omega
        have h2 : ((m : ℕ) : ℚ) ≤ ((2 ^ 21 - 1 : ℕ) : ℚ) := by exact_mod_cast this
        norm_num at h2 ⊢
        linarith
      have hlt : ⌊f2 + 1 / 2⌋ < ((m : ℤ) + 1) := by
        rw [Int.floor_lt]
        push_cast
        linarith
      have hle : round f2 ≤ (m : ℤ) := by
        rw [round_eq]
        omega
      have : (round f2).toNat ≤ m := Int.toNat_le.mpr hle
      omega

/-- `getD` at an in-bounds index produces a member of the list. -/
theorem getD_mem_of_lt {α : Type} (l : List α) (i : Nat) (d : α)
    (h : i < l.length) : l.getD i d ∈ l := by
  rw [List.getD_eq_getElem?_getD, List.getElem?_eq_getElem h]
  exact List.getElem_mem h

/-- `getD` over a `map` of `range` evaluates the mapped function. -/
theorem getD_map_range {α : Type} (f : Nat → α) (len i : Nat) (d : α)
    (h : i < len) : ((List.range len).map f).getD i d = f i := by
  rw [List.getD_eq_getElem?_getD, List.getElem?_map, List.getElem?_range h]
  rfl

/-! ## Claims -/

/-- C1: for every pool `P` and requested length `L`, `sample(P, L)` returns a
string of exactly `L` characters, each a member of `P`; sampling from an
empty pool returns the empty string for every `L`, sampling with `L = 0`
returns the empty string for every `P`, and in either empty case no random
bytes are requested. -/
theorem C1_sample_shape (pool : List Char) (len : Nat) (rand : Nat → Nat) :
    (pool ≠ [] →
      (gen_rand_string pool len rand).length = len
        ∧ ∀ c ∈ gen_rand_string pool len rand, c ∈ pool)
  ∧ (pool = [] → gen_rand_string pool len rand = [])
  ∧ (len = 0 → gen_rand_string pool len rand = [])
  ∧ (len = 0 ∨ pool = [] → rand_bytes_requested pool len = 0) := by
  refine ⟨fun hp => ⟨?_, ?_⟩, fun hp => ?_, fun hl => ?_, fun h => ?_⟩
  · unfold gen_rand_string
    rcases Nat.eq_zero_or_pos len with hl | hl
    · simp [hl]
    · rw [if_neg (by simp [hp]; omega)]
      simp
  · intro c hc
    unfold gen_rand_string at hc
    by_cases hl : len = 0
    · simp [hl] at hc
    · rw [if_neg (by simp [hp, hl])] at hc
      obtain ⟨i, _hi, hci⟩ := List.exists_of_mem_map hc
      subst hci
      apply getD_mem_of_lt
      apply char_index_lt
      · simpa using fun hnil => hp hnil
      · have := Nat.mod_lt (rand i) (y := 256) (by norm_num)
        omega
  · simp [gen_rand_string, hp]
  · simp [gen_rand_string, hl]
  · simp [rand_bytes_requested, h]

/-- C1 witness: a concrete instantiation of `C1_sample_shape` at the
two-character pool `['a', 'b']`, length 2, and an identity byte source. -/
theorem C1_sample_shape_witness :
    ((['a', 'b'] : List Char) ≠ [] →
      (gen_rand_string ['a', 'b'] 2 (fun i => i)).length = 2
        ∧ ∀ c ∈ gen_rand_string ['a', 'b'] 2 (fun i => i), c ∈ (['a', 'b'] : List Char))
  ∧ ((['a', 'b'] : List Char) = [] → gen_rand_string ['a', 'b'] 2 (fun i => i) = [])
  ∧ ((2 : Nat) = 0 → gen_rand_string ['a', 'b'] 2 (fun i => i) = [])
  ∧ ((2 : Nat) = 0 ∨ (['a', 'b'] : List Char) = [] →
      rand_bytes_requested ['a', 'b'] 2 = 0) :=
  C1_sample_shape ['a', 'b'] 2 (fun i => i)

/-- C2 counterexample: at pool size 32769 (constructible — 32769 distinct
characters fit in custom bracket-run tokens) and byte 254, the program's
`f32` pipeline (`char_index_f32`, the exact IEEE-754 emulation of the source
expression) selects index 32640, while the claimed formula
`round(b * (|pool| - 1) / 255)` — `char_index`, proved equal to the rounded
rational by `char_index_eq_round` — yields 32639.  The intermediate values:
`fl(32768/255) = 8421505/2^16` (the exact quotient `128.5019…` rounds up),
then `fl(254 · 8421505/2^16) = 32639.5` exactly, which `.round()` takes to
32640; the exact value `254·32768/255 = 32639.498…` rounds to 32639. -/
theorem C2_counterexample :
    char_index_f32 32769 254 = 32640
  ∧ char_index 32769 254 = 32639
  ∧ (round ((254 : ℚ) * ((32769 - 1 : ℕ) : ℚ) / 255)).toNat = 32639 := by
  have hA : f32round ((32768 : ℕ) : ℚ) = 32768 := by
    have hq : (0 : ℚ) < ((32768 : ℕ) : ℚ) := by norm_num
    have hL : qlog2 ((32768 : ℕ) : ℚ) = 15 :=
      qlog2_eq_of _ 15 hq (by norm_num) (by norm_num)
    have hr : rndNE (((32768 : ℕ) : ℚ) / 2 ^ ((15 : ℤ) - 23)) = 8388608 := by
      norm_num [rndNE]
    unfold f32round
    rw [if_pos hq, hL, hr]
    norm_num
  have hB : f32round ((32768 : ℚ) / 255) = 8421505 / 65536 := by
    have hq : (0 : ℚ) < (32768 : ℚ) / 255 := by norm_num
    have hL : qlog2 ((32768 : ℚ) / 255) = 7 :=
      qlog2_eq_of _ 7 hq (by norm_num) (by norm_num)
    have hr : rndNE (((32768 : ℚ) / 255) / 2 ^ ((7 : ℤ) - 23)) = 8421505 := by
      norm_num [rndNE]
    unfold f32round
    rw [if_pos hq, hL, hr]
    norm_num
  have hC : f32round ((254 : ℚ) * (8421505 / 65536)) = 16711424 / 512 := by
    have hq : (0 : ℚ) < (254 : ℚ) * (8421505 / 65536) := by norm_num
    have hL : qlog2 ((254 : ℚ) * (8421505 / 65536)) = 14 :=
      qlog2_eq_of _ 14 hq (by norm_num) (by norm_num)
    have hr : rndNE (((254 : ℚ) * (8421505 / 65536)) / 2 ^ ((14 : ℤ) - 23))
        = 16711424 := by
      norm_num [rndNE]
    unfold f32round
    rw [if_pos hq, hL, hr]
    norm_num
  refine ⟨?_, by decide, ?_⟩
  · unfold char_index_f32
    rw [show (32769 - 1 : ℕ) = 32768 from rfl, hA, hB,
      show ((254 : ℕ) : ℚ) = (254 : ℚ) by norm_num, hC, round_eq]
    norm_num
    decide
  · rw [show (32769 - 1 : ℕ) = 32768 from rfl, round_eq]
    norm_num
    decide

/-- C2 amended: for a non-empty pool, the sampler selects the pool character
at the index given by the source's `f32` pipeline (`char_index_f32`).  That
index equals the spec formula `round(b * (|pool| - 1) / 255)` — which
`char_index` computes exactly (`char_index_eq_round`) and which the sampler
model uses — for every pool of size at most 4096 and every byte; exhaustive
IEEE-754 emulation places the first divergence at pool size 32769.  The
`f32` index always lies within the pool's bounds for every pool of size at
most `2^21`, which covers every reachable pool (pool characters are
distinct, and fewer than `2^21` `char` values exist); and for a pool of
size one every sampled character equals the sole pool element. -/
theorem C2_sampler_f32_index (pool : List Char) (len : Nat) (rand : Nat → Nat)
    (hp : pool ≠ []) :
    (pool.length ≤ 4096 → ∀ b : Nat, b ≤ 255 →
        char_index_f32 pool.length b = char_index pool.length b)
  ∧ (∀ b : Nat, (char_index pool.length b : ℤ)
        = round ((b : ℚ) * ((pool.length - 1 : ℕ) : ℚ) / 255))
  ∧ (pool.length ≤ 2 ^ 21 → ∀ b : Nat, b ≤ 255 →
        char_index_f32 pool.length b < pool.length)
  ∧ (∀ i : Nat, i < len → (gen_rand_string pool len rand).getD i ' '
        = pool.getD (char_index pool.length (rand i % 256)) ' ')
  ∧ (∀ e : Char, pool = [e] → (∀ b : Nat, char_index_f32 pool.length b = 0)
        ∧ ∀ i : Nat, i < len → (gen_rand_string pool len rand).getD i ' ' = e) := by
  have hlen : 1 ≤ pool.length := by
    rcases pool with _ | ⟨c, cs⟩
    · exact absurd rfl hp
    · simp
  have hsel : ∀ i : Nat, i < len → (gen_rand_string pool len rand).getD i ' '
      = pool.getD (char_index pool.length (rand i % 256)) ' ' := by
    intro i hi
    unfold gen_rand_string
    rw [if_neg (by simp [hp]; omega)]
    exact getD_map_range _ len i ' ' hi
  refine ⟨fun hsz b hb => char_index_f32_eq_char_index pool.length b (by omega) hb,
          fun b => char_index_eq_round pool.length b,
          fun hsz b hb => char_index_f32_lt pool.length b hlen hsz hb,
          hsel, fun e he => ⟨fun b => char_index_f32_m_zero pool.length b (by
            rw [he]
            rfl), fun i hi => ?_⟩⟩
  rw [hsel i hi, he]
  subst he
  simp [char_index]

/-- C2 amended witness: `C2_sampler_f32_index` at the two-character pool
`['a', 'b']` and byte 200, with every hypothesis discharged concretely. -/
theorem C2_sampler_f32_index_witness :
    char_index_f32 (['a', 'b'] : List Char).length 200
      < (['a', 'b'] : List Char).length :=
  ((C2_sampler_f32_index ['a', 'b'] 1 (fun _ => 0) (by decide)).2.2.1
    (by decide)) 200 (by decide)

/-- C3 counterexample: on the malformed input `["abc"]` the program prints
the `ERROR:`/`HELP:` pair for an invalid length (`err` is set), yet the
process exit status is 0 — the `err!` macro ends in a plain `return` from
`main`, not a non-zero exit — contradicting the claim that every parse
error exits with a non-zero status. -/
theorem C3_counterexample :
    (run_main ["abc".data] (fun _ _ => 0)).err = some ErrKind.InvalidInteger
  ∧ (run_main ["abc".data] (fun _ _ => 0)).exit_code = 0 := by decide

/-- C3 amended: the process always exits with status 0 — on success, on help
display, and also after printing the `ERROR:` and `HELP:` lines for any
parse or build error (only a panic in an external collaborator, outside
this model, can produce a non-zero status). -/
theorem C3_exit_code (args : List (List Char)) (rand : Nat → Nat → Nat) :
    (run_main args rand).exit_code = 0 := by
  unfold run_main
  rcases parse_args false false 1 args with k | r
  · rfl
  · rcases r with _ | ⟨copy, show_pool, rep, len, rest⟩
    · rfl
    · dsimp only
      rcases proc_entries init_cfg rest with k | cfg
      · rfl
      · dsimp only
        rcases build_pool cfg with k | pool <;> rfl

/-- C4 counterexample: the token `"0"` after `--repeat` is accepted (Rust
parses it as the valid `i32` value 0, later yielding zero generated
strings), contradicting the claim that `"0"` fails with `InvalidInteger`. -/
theorem C4_counterexample :
    parse_args false false 1 ["--repeat".data, ['0'], ['5']]
      = .ok (.done false false 0 5 []) := by decide

/-- C4 amended: `--repeat`/`-r` consume the immediately following token as
the repeat count; the parse fails with `MissingArgument` when no token
follows, fails with `InvalidInteger` when the token is not a valid `i32`
integer, and otherwise continues with the parsed count — any `i32` value,
including `0` and negatives (which simply yield zero generated strings), is
accepted. -/
theorem C4_repeat_parsing (copy show_pool : Bool) (rep : Int)
    (tok : List Char) (rest : List (List Char)) :
    parse_args copy show_pool rep ["--repeat".data] = .error .MissingArgument
  ∧ parse_args copy show_pool rep ["-r".data] = .error .MissingArgument
  ∧ (parse_i32 tok = none →
      parse_args copy show_pool rep ("--repeat".data :: tok :: rest)
        = .error .InvalidInteger
      ∧ parse_args copy show_pool rep ("-r".data :: tok :: rest)
        = .error .InvalidInteger)
  ∧ (∀ v : Int, parse_i32 tok = some v →
      parse_args copy show_pool rep ("--repeat".data :: tok :: rest)
        = parse_args copy show_pool v rest
      ∧ parse_args copy show_pool rep ("-r".data :: tok :: rest)
        = parse_args copy show_pool v rest)
  ∧ parse_i32 ['0'] = some 0 := by
  refine ⟨by simp [parse_args], by simp [parse_args],
          fun hn => ⟨by simp [parse_args, hn], by simp [parse_args, hn]⟩,
          fun v hv => ⟨by simp [parse_args, hv], by simp [parse_args, hv]⟩,
          by decide⟩

/-- C4 witness: `C4_repeat_parsing` applied at the non-integer token `"x"`
(for the `InvalidInteger` case) with its hypotheses discharged concretely. -/
theorem C4_repeat_parsing_witness :
    parse_args false false 1 ["--repeat".data] = .error .MissingArgument
  ∧ parse_args false false 1 ("--repeat".data :: ['x'] :: [])
      = .error .InvalidInteger := by
  refine ⟨(C4_repeat_parsing false false 1 ['x'] []).1, ?_⟩
  exact ((C4_repeat_parsing false false 1 ['x'] []).2.2.1 (by decide)).1

/-- Processing one directive-group body consisting only of the five
predefined-set letters succeeds, leaves the custom add/remove lists
untouched, and sets the flag of a letter to the group's sign exactly when
the body mentions that letter. -/
theorem proc_entry_chars_restricted (sign : Bool) (letter : Char)
    (hl : letter = 'd' ∨ letter = 'l' ∨ letter = 'u' ∨ letter = 's' ∨ letter = 'm') :
    ∀ (body : List Char) (cfg : PoolCfg),
      (∀ c ∈ body, c = 'd' ∨ c = 'l' ∨ c = 'u' ∨ c = 's' ∨ c = 'm') →
      ∃ cfg2, proc_entry_chars sign cfg false body = .ok cfg2
        ∧ flag_of letter cfg2.flags
            = (if letter ∈ body then sign else flag_of letter cfg.flags)
        ∧ cfg2.add_chars = cfg.add_chars
        ∧ cfg2.remove_chars = cfg.remove_chars := by
  intro body
  induction body with
  | nil =>
    intro cfg _
    exact ⟨cfg, rfl, by simp, rfl, rfl⟩
  | cons c rest ih =>
    intro cfg hb
    have hc := hb c (List.mem_cons_self c rest)
    have hrest : ∀ x ∈ rest, x = 'd' ∨ x = 'l' ∨ x = 'u' ∨ x = 's' ∨ x = 'm' :=
      fun x hx => hb x (List.mem_cons_of_mem c hx)
    rcases hc with rfl | rfl | rfl | rfl | rfl <;>
      [obtain ⟨cfg2, hok, hflag, hadd, hrem⟩ := ih { cfg with flags.digits := sign } hrest;
       obtain ⟨cfg2, hok, hflag, hadd, hrem⟩ := ih { cfg with flags.lower := sign } hrest;
       obtain ⟨cfg2, hok, hflag, hadd, hrem⟩ := ih { cfg with flags.upper := sign } hrest;
       obtain ⟨cfg2, hok, hflag, hadd, hrem⟩ := ih { cfg with flags.upper_sep := sign } hrest;
       obtain ⟨cfg2, hok, hflag, hadd, hrem⟩ := ih { cfg with flags.misc := sign } hrest] <;>
    · refine ⟨cfg2, hok, ?_, hadd, hrem⟩
      rw [hflag]
      by_cases hm : letter ∈ rest <;>
        rcases hl with rfl | rfl | rfl | rfl | rfl <;>
        simp [flag_of, List.mem_cons, hm]

/-- Processing a list of directive groups whose bodies consist only of the
five predefined-set letters succeeds, and the final flag of each letter is
the left fold of "a group mentioning the letter overwrites the flag with its
sign" over the groups. -/
theorem proc_entries_restricted (letter : Char)
    (hl : letter = 'd' ∨ letter = 'l' ∨ letter = 'u' ∨ letter = 's' ∨ letter = 'm') :
    ∀ (groups : List (List Char)) (cfg : PoolCfg),
      (∀ g ∈ groups, ∃ s body, (s = '+' ∨ s = '-') ∧ g = s :: body
          ∧ ∀ c ∈ body, c = 'd' ∨ c = 'l' ∨ c = 'u' ∨ c = 's' ∨ c = 'm') →
      ∃ cfg2, proc_entries cfg groups = .ok cfg2
        ∧ flag_of letter cfg2.flags
            = groups.foldl
                (fun acc g =>
                  if letter ∈ g.drop 1 then (if g.head? = some '+' then true else false)
                  else acc)
                (flag_of letter cfg.flags) := by
  intro groups
  induction groups with
  | nil =>
    intro cfg _
    exact ⟨cfg, rfl, by simp⟩
  | cons g gs ih =>
    intro cfg hg
    obtain ⟨s, body, hs, hgeq, hbody⟩ := hg g (List.mem_cons_self g gs)
    subst hgeq
    have hgs : ∀ g' ∈ gs, ∃ s body, (s = '+' ∨ s = '-') ∧ g' = s :: body
        ∧ ∀ c ∈ body, c = 'd' ∨ c = 'l' ∨ c = 'u' ∨ c = 's' ∨ c = 'm' :=
      fun g' h' => hg g' (List.mem_cons_of_mem _ h')
    rcases hs with rfl | rfl
    · obtain ⟨cfg1, hok, hflag, _, _⟩ :=
        proc_entry_chars_restricted true letter hl body cfg hbody
      obtain ⟨cfg2, hok2, hflag2⟩ := ih cfg1 hgs
      refine ⟨cfg2, ?_, ?_⟩
      · show (match proc_entry_chars true cfg false body with
              | .ok c2 => proc_entries c2 gs
              | .error e => .error e) = .ok cfg2
        rw [hok]
        exact hok2
      · rw [hflag2, hflag, List.foldl_cons]
        by_cases hm : letter ∈ body <;> simp [hm]
    · obtain ⟨cfg1, hok, hflag, _, _⟩ :=
        proc_entry_chars_restricted false letter hl body cfg hbody
      obtain ⟨cfg2, hok2, hflag2⟩ := ih cfg1 hgs
      refine ⟨cfg2, ?_, ?_⟩
      · show (match proc_entry_chars false cfg false body with
              | .ok c2 => proc_entries c2 gs
              | .error e => .error e) = .ok cfg2
        rw [hok]
        exact hok2
      · rw [hflag2, hflag, List.foldl_cons]
        by_cases hm : letter ∈ body <;> simp [hm]

/-- C5 counterexample: the directive groups `["+d", "+A"]` refute the claim
as stated.  The last group whose body mentions `'d'` is `"+d"` with sign
include, so the claim predicts the digits flag ends up `true`
(`spec_last_mention_flag` is the claim's rule, modelled from its words), but
the code's entries loop leaves the digits flag `false`, because the later
group's `'A'` resets every flag regardless of the claim's per-letter rule. -/
theorem C5_counterexample :
    spec_last_mention_flag 'd' ["+d".data, "+A".data] = true
  ∧ proc_entries init_cfg ["+d".data, "+A".data]
      = .ok ⟨⟨false, false, false, false, false⟩, [], []⟩ := by decide

/-- C5 amended: restricted to directive groups whose bodies use only the
five predefined-set letters (no `'A'` reset and no `'['` custom run), the
final inclusion flag of each set equals the sign of the last group whose
body mentions that set's letter, defaulting to included; groups containing
`'A'` instead reset every flag to `false` at that point, regardless of the
claim's per-letter rule.  In particular `+d` then `-d` leaves digits
excluded, and `-d` then `+d` leaves digits included. -/
theorem C5_last_directive_wins (groups : List (List Char)) (letter : Char)
    (hl : letter = 'd' ∨ letter = 'l' ∨ letter = 'u' ∨ letter = 's' ∨ letter = 'm')
    (hgroups : ∀ g ∈ groups, ∃ s body, (s = '+' ∨ s = '-') ∧ g = s :: body
        ∧ ∀ c ∈ body, c = 'd' ∨ c = 'l' ∨ c = 'u' ∨ c = 's' ∨ c = 'm') :
    (∃ cfg2, proc_entries init_cfg groups = .ok cfg2
      ∧ flag_of letter cfg2.flags = spec_last_mention_flag letter groups)
  ∧ proc_entries init_cfg ["+d".data, "-d".data]
      = .ok ⟨⟨false, true, true, true, true⟩, [], []⟩
  ∧ proc_entries init_cfg ["-d".data, "+d".data]
      = .ok ⟨⟨true, true, true, true, true⟩, [], []⟩ := by
  refine ⟨?_, by decide, by decide⟩
  obtain ⟨cfg2, hok, hflag⟩ := proc_entries_restricted letter hl groups init_cfg hgroups
  refine ⟨cfg2, hok, ?_⟩
  rw [hflag, spec_last_mention_flag]
  rcases hl with rfl | rfl | rfl | rfl | rfl <;> rfl

/-- C5 witness: `C5_last_directive_wins` applied to the concrete groups
`["+d", "-l"]` and the letter `'d'`, with both hypotheses discharged. -/
theorem C5_last_directive_wins_witness :
    ∃ cfg2, proc_entries init_cfg ["+d".data, "-l".data] = .ok cfg2
      ∧ flag_of 'd' cfg2.flags = spec_last_mention_flag 'd' ["+d".data, "-l".data] := by
  refine (C5_last_directive_wins ["+d".data, "-l".data] 'd' (Or.inl rfl) ?_).1
  intro g hg
  have hg2 : g = "+d".data ∨ g = "-l".data := by
    simpa using hg
  rcases hg2 with rfl | rfl
  · exact ⟨'+', ['d'], Or.inl rfl, rfl, by decide⟩
  · exact ⟨'-', ['l'], Or.inr rfl, rfl, by decide⟩

/-- C6: the built pool starts as the concatenation, in the fixed canonical
order digits, lowercase, uppercase, separators, misc symbols, of exactly the
predefined sets whose final inclusion flag is true; it never contains
duplicate characters (the canonical sets are pairwise disjoint); and with
all flags at their default `true` it is always the same fixed character
sequence. -/
theorem C6_base_pool_canonical (f : SetFlags) :
    base_pool f
      = (if f.digits then DIGITS else []) ++ (if f.lower then LETTERS_LC else [])
        ++ (if f.upper then LETTERS_UC else []) ++ (if f.upper_sep then SEPARATORS else [])
        ++ (if f.misc then MISC_SYMBOLS else [])
  ∧ (base_pool f).Nodup
  ∧ base_pool ⟨true, true, true, true, true⟩
      = DIGITS ++ LETTERS_LC ++ LETTERS_UC ++ SEPARATORS ++ MISC_SYMBOLS := by
  obtain ⟨d, l, u, s, m⟩ := f
  cases d <;> cases l <;> cases u <;> cases s <;> cases m <;>
    exact ⟨by decide, by decide, by decide⟩

/-- C7: during pool building the add-list is processed in order, failing
with `DuplicateCharacter` on a character already present and otherwise
appending it; then the remove-list is processed in order, failing with
`CharacterNotFound` on an absent character and otherwise deleting that
character's first occurrence while preserving the relative order of the
remaining characters (`List.erase`). -/
theorem C7_add_remove_steps (pool : List Char) (c : Char) (cs : List Char) :
    (c ∈ pool → apply_adds pool (c :: cs) = .error .DuplicateCharacter)
  ∧ (c ∉ pool → apply_adds pool (c :: cs) = apply_adds (pool ++ [c]) cs)
  ∧ (c ∉ pool → apply_removes pool (c :: cs) = .error .CharacterNotFound)
  ∧ (c ∈ pool → apply_removes pool (c :: cs) = apply_removes (pool.erase c) cs) := by
  refine ⟨fun h => ?_, fun h => ?_, fun h => ?_, fun h => ?_⟩
  · simp [apply_adds, h]
  · simp [apply_adds, h]
  · have hnone : pool.findIdx? (fun x => x = c) = none := by
      rw [List.findIdx?_eq_none_iff]
      intro x hx
      simp only [decide_eq_false_iff_not]
      intro hxc
      exact h (hxc ▸ hx)
    simp [apply_removes, hnone]
  · obtain ⟨i, hi, hidx⟩ : ∃ i, pool.findIdx? (fun x => x = c) = some i
        ∧ pool.eraseIdx i = pool.erase c := by
      induction pool with
      | nil => cases h
      | cons x xs ih =>
        by_cases hxc : x = c
        · subst hxc
          exact ⟨0, by simp [List.findIdx?_cons], by simp⟩
        · have hmem : c ∈ xs := by
            rcases List.mem_cons.mp h with h1 | h1
            · exact absurd h1.symm hxc
            · exact h1
          obtain ⟨j, hj, hj2⟩ := ih hmem
          refine ⟨j + 1, ?_, ?_⟩
          · rw [List.findIdx?_cons, if_neg (by simp [hxc]), List.findIdx?_succ, hj]
            rfl
          · rw [List.eraseIdx_cons_succ, hj2, List.erase_cons_tail]
            simp [hxc]
    simp [apply_removes, hi, hidx]

/-- C7 witness: `C7_add_remove_steps` at the pool `['a', 'b']`, applied
twice — once with the present character `'a'`, once with the absent
character `'z'` — discharging each hypothesis concretely. -/
theorem C7_add_remove_steps_witness :
    (apply_adds ['a', 'b'] ('a' :: []) = .error .DuplicateCharacter)
  ∧ (apply_adds ['a', 'b'] ('z' :: []) = apply_adds (['a', 'b'] ++ ['z']) [])
  ∧ (apply_removes ['a', 'b'] ('z' :: []) = .error .CharacterNotFound)
  ∧ (apply_removes ['a', 'b'] ('a' :: [])
      = apply_removes ((['a', 'b'] : List Char).erase 'a') []) :=
  ⟨(C7_add_remove_steps ['a', 'b'] 'a' []).1 (by decide),
   (C7_add_remove_steps ['a', 'b'] 'z' []).2.1 (by decide),
   (C7_add_remove_steps ['a', 'b'] 'z' []).2.2.1 (by decide),
   (C7_add_remove_steps ['a', 'b'] 'a' []).2.2.2 (by decide)⟩

/-- C8: whenever the scanner is processing the designated "all" letter `'A'`
of a directive-group body (outside a custom bracket run), it resets every
predefined set's inclusion flag to `false` and continues — regardless of
whether the group's sign is include or exclude, and regardless of the
current flags; the custom add/remove lists are untouched. -/
theorem C8_all_letter_resets (sign : Bool) (cfg : PoolCfg) (rest : List Char) :
    proc_entry_chars sign cfg false ('A' :: rest)
      = proc_entry_chars sign
          ⟨⟨false, false, false, false, false⟩, cfg.add_chars, cfg.remove_chars⟩
          false rest := by
  cases cfg
  rfl

/-- C9: the clipboard is written if and only if the copy flag is set and at
least one string was generated, and what is written is exactly the last
generated string; when the copy flag is unset, the clipboard is never
touched. -/
theorem C9_clipboard_last (args : List (List Char)) (rand : Nat → Nat → Nat) :
    ((run_main args rand).clipboard ≠ none
        ↔ (run_main args rand).copy_requested = true
            ∧ (run_main args rand).outputs ≠ [])
  ∧ ((run_main args rand).copy_requested = true →
      (run_main args rand).outputs ≠ [] →
      (run_main args rand).clipboard = (run_main args rand).outputs.getLast?)
  ∧ ((run_main args rand).copy_requested = false →
      (run_main args rand).clipboard = none) := by
  unfold run_main
  rcases parse_args false false 1 args with k | r
  · simp [err_outcome]
  · rcases r with _ | ⟨copy, show_pool, rep, len, rest⟩
    · simp
    · dsimp only
      rcases proc_entries init_cfg rest with k | cfg
      · simp [err_outcome]
      · dsimp only
        rcases build_pool cfg with k | pool
        · simp [err_outcome]
        · dsimp only
          rcases hgl : ((List.range rep.toNat).map
              (fun k => gen_rand_string pool len (rand k))).getLast? with _ | s
          · have hnil : (List.range rep.toNat).map
                (fun k => gen_rand_string pool len (rand k)) = [] := by
              rwa [List.getLast?_eq_none_iff] at hgl
            cases copy <;> simp [hgl, hnil]
          · have hne : (List.range rep.toNat).map
                (fun k => gen_rand_string pool len (rand k)) ≠ [] := by
              intro he
              rw [he] at hgl
              cases hgl
            cases copy <;> simp [hgl, hne]

/-- C9 witness: `C9_clipboard_last` at the concrete invocation
`rand-str-gen --copy 1`, whose single generated string (under the constant
byte source 0) is `"0"`; its hypotheses are discharged by evaluation. -/
theorem C9_clipboard_last_witness :
    (run_main ["--copy".data, ['1']] (fun _ _ => 0)).clipboard
      = (run_main ["--copy".data, ['1']] (fun _ _ => 0)).outputs.getLast? :=
  (C9_clipboard_last ["--copy".data, ['1']] (fun _ _ => 0)).2.1
    (by decide) (by decide)

/-- C10: an empty-string token anywhere among the directive-group arguments
is skipped silently — processing the argument list with the empty token is
the same as processing it without, so it produces no error and leaves the
flags and custom lists unchanged. -/
theorem C10_empty_token_skipped (pre post : List (List Char)) (cfg : PoolCfg) :
    proc_entries cfg (pre ++ ([] : List Char) :: post)
      = proc_entries cfg (pre ++ post) := by
  induction pre generalizing cfg with
  | nil => rfl
  | cons a pre ih =>
    rcases a with _ | ⟨c, body⟩
    · exact ih cfg
    · show proc_entries cfg ((c :: body) :: (pre ++ [] :: post))
        = proc_entries cfg ((c :: body) :: (pre ++ post))
      by_cases h1 : c = '+'
      · subst h1
        simp only [proc_entries, if_pos rfl]
        cases hpe : proc_entry_chars true cfg false body <;> simp [hpe, ih]
      · by_cases h2 : c = '-'
        · subst h2
          simp only [proc_entries,
            if_neg (show ¬ ('-' : Char) = '+' by decide), if_pos rfl]
          cases hpe : proc_entry_chars false cfg false body <;> simp [hpe, ih]
        · simp only [proc_entries, if_neg h1, if_neg h2]

end RandStrGen
